import Mathlib

/-!
# Verification of the musli serialization framework core

Shallow embedding of the musli repository's core components, and proofs of
the testable properties stated in its specification:

* zigzag + continuation-bit variable-length integer coding (spec §4.4),
* the descriptive self-describing codec over the schemaless `Value` tree
  (spec §3, §4.4, §4.5),
* the value-tree encoder's builder state machines
  (`crates/musli-value/src/en.rs`),
* the pooled `System` allocator (`crates/musli/src/allocator/system.rs`),
* the slice-backed parser (`crates/musli/src/json/parser/slice_parser.rs`),
* the three-way unsized-data visitation used by `Decode for String`
  (`crates/musli-core/src/impls/alloc.rs`),
* the context error rendering exercised by the `trace_collection` test.

Machine integers are modelled as `Nat`/`Int` with explicit `% 2^w` where
overflow matters.  Bytes are `Nat` values (well-formedness predicates bound
them below `256` where relevant).
-/

namespace Musli

/-! ## Zigzag transform (spec §4.4)

Modelled from the spec: the `musli_utils::int::zigzag` module is referenced
by `crates/musli-descriptive/src/encoding.rs` but its source is not part of
this repository snapshot.  The spec gives the transform as
`n → (n << 1) XOR (n >> (bits - 1))` on two's-complement machine integers,
with the arithmetic right shift producing an all-ones word for negatives.
-/

/-- Two's-complement representation of a `w`-bit signed integer as a `Nat`. -/
def toTwos (w : Nat) (n : Int) : Nat := (n % ((2 : Int) ^ w)).toNat

/-- Read a `w`-bit two's-complement word back as a signed integer. -/
def fromTwos (w : Nat) (u : Nat) : Int :=
  if u < 2 ^ (w - 1) then (u : Int) else (u : Int) - 2 ^ w

/-- Zigzag transform for `w`-bit integers, `(n << 1) XOR (n >> (w - 1))`
with the shifts performed on the two's-complement word (`>>` arithmetic:
negatives produce an all-ones word). -/
def zigzagW (w : Nat) (n : Int) : Nat :=
  (toTwos w n <<< 1) % 2 ^ w ^^^
    (if 2 ^ (w - 1) ≤ toTwos w n then 2 ^ w - 1 else 0)

/-- Inverse zigzag transform: `(u >> 1) XOR (all-ones * (u & 1))`, read back
as a signed `w`-bit integer. -/
def unzigzagW (w : Nat) (u : Nat) : Int :=
  fromTwos w ((u >>> 1) ^^^ (if u % 2 = 1 then 2 ^ w - 1 else 0))

/-! ## Continuation-bit variable-length encoding (spec §4.4)

Modelled from the spec: `musli_utils::int::continuation` is referenced by
`crates/musli-descriptive/src/encoding.rs` but its source is not part of
this snapshot.  Each output byte carries 7 payload bits, least-significant
group first, plus a continuation flag (the high bit); encoding stops once
the remaining magnitude is zero.
-/

/-- Fuelled continuation varint encoding (the fuel only drives structural
recursion; `cEncode` supplies enough of it for the value at hand). -/
def cEncodeF : Nat → Nat → List Nat
  | 0, u => [u]
  | fuel + 1, u =>
    if u < 128 then [u] else (u % 128 + 128) :: cEncodeF fuel (u / 128)

/-- Continuation varint encoding of an unsigned value to a byte list. -/
def cEncode (u : Nat) : List Nat := cEncodeF u u

/-- Continuation varint decoding; returns the value and the unread rest. -/
def cDecode : List Nat → Option (Nat × List Nat)
  | [] => none
  | b :: rest =>
    if b < 128 then some (b, rest)
    else
      match cDecode rest with
      | some (v, r) => some (v * 128 + (b - 128), r)
      | none => none

/-- Encode a signed 64-bit integer: zigzag, then continuation varint. -/
def encodeI64 (n : Int) : List Nat := cEncode (zigzagW 64 n)

/-- Decode a signed 64-bit integer: continuation varint, then un-zigzag. -/
def decodeI64 (bytes : List Nat) : Option (Int × List Nat) :=
  match cDecode bytes with
  | some (u, r) => some (unzigzagW 64 u, r)
  | none => none

/-! ## The Value tree data model (spec §3)

Modelled from the spec: the `Value`/`Number` definitions live in
`crates/musli-value/src/value.rs`, which is not part of this snapshot (only
`en.rs`, which consumes them, is).  Per spec §3, `Number` is a tagged union
over unsigned/signed integers of widths 8–128, pointer-sized integers, and
32/64-bit floats; `Value` is the schemaless tagged union.  Characters and
text are modelled by their Unicode codepoints; floats by their bit
patterns (the codec only transports the bits).
-/

inductive Number where
  | u8 (v : Nat)
  | u16 (v : Nat)
  | u32 (v : Nat)
  | u64 (v : Nat)
  | u128 (v : Nat)
  | usize (v : Nat)
  | i8 (v : Int)
  | i16 (v : Int)
  | i32 (v : Int)
  | i64 (v : Int)
  | i128 (v : Int)
  | isize (v : Int)
  | f32 (bits : Nat)
  | f64 (bits : Nat)
deriving DecidableEq

inductive Value where
  | unit
  | bool (b : Bool)
  | chr (codepoint : Nat)
  | number (n : Number)
  | bytes (bs : List Nat)
  | str (codepoints : List Nat)
  | option (o : Option Value)
  | sequence (vs : List Value)
  | map (entries : List (Value × Value))
  | variant (tag payload : Value)

/-- Range constraint of a `Number` variant's machine-integer payload
(pointer-sized integers taken at 64 bits). -/
def Number.wf : Number → Bool
  | .u8 v => v < 2 ^ 8
  | .u16 v => v < 2 ^ 16
  | .u32 v => v < 2 ^ 32
  | .u64 v => v < 2 ^ 64
  | .u128 v => v < 2 ^ 128
  | .usize v => v < 2 ^ 64
  | .i8 v => -(2 ^ 7) ≤ v && v < 2 ^ 7
  | .i16 v => -(2 ^ 15) ≤ v && v < 2 ^ 15
  | .i32 v => -(2 ^ 31) ≤ v && v < 2 ^ 31
  | .i64 v => -(2 ^ 63) ≤ v && v < 2 ^ 63
  | .i128 v => -(2 ^ 127) ≤ v && v < 2 ^ 127
  | .isize v => -(2 ^ 63) ≤ v && v < 2 ^ 63
  | .f32 b => b < 2 ^ 32
  | .f64 b => b < 2 ^ 64

/-- A codepoint a Rust `char` can carry: below `0x110000`, not a surrogate. -/
def validCodepoint (c : Nat) : Bool := c < 0xd800 || (0xdfff < c && c < 0x110000)

mutual

/-- Well-formedness of a `Value` tree: every machine integer is within its
variant's range, bytes are bytes, codepoints are valid `char` scalars. -/
def Value.wf : Value → Bool
  | .unit => true
  | .bool _ => true
  | .chr c => validCodepoint c
  | .number n => n.wf
  | .bytes bs => bs.all (fun b => b < 256)
  | .str cs => cs.all validCodepoint
  | .option none => true
  | .option (some v) => v.wf
  | .sequence vs => Value.wfList vs
  | .map es => Value.wfPairs es
  | .variant t p => t.wf && p.wf

def Value.wfList : List Value → Bool
  | [] => true
  | v :: vs => v.wf && Value.wfList vs

def Value.wfPairs : List (Value × Value) → Bool
  | [] => true
  | (k, v) :: es => k.wf && v.wf && Value.wfPairs es

end

mutual

/-- Number of nodes of a `Value` tree (used as decoding fuel). -/
def Value.size : Value → Nat
  | .unit => 1
  | .bool _ => 1
  | .chr _ => 1
  | .number _ => 1
  | .bytes _ => 1
  | .str _ => 1
  | .option none => 1
  | .option (some v) => 1 + v.size
  | .sequence vs => 1 + Value.sizeList vs
  | .map es => 1 + Value.sizePairs es
  | .variant t p => 1 + t.size + p.size

def Value.sizeList : List Value → Nat
  | [] => 0
  | v :: vs => 1 + v.size + Value.sizeList vs

def Value.sizePairs : List (Value × Value) → Nat
  | [] => 0
  | (k, v) :: es => 1 + k.size + v.size + Value.sizePairs es

end

/-! ## UTF-8 text bytes (spec §4.4: strings are a varint length followed by
that many raw bytes of the text) -/

/-- UTF-8 encoding of one Unicode codepoint. -/
def utf8EncodeChar (n : Nat) : List Nat :=
  if n < 0x80 then [n]
  else if n < 0x800 then [0xc0 + n / 0x40, 0x80 + n % 0x40]
  else if n < 0x10000 then
    [0xe0 + n / 0x1000, 0x80 + n / 0x40 % 0x40, 0x80 + n % 0x40]
  else
    [0xf0 + n / 0x40000, 0x80 + n / 0x1000 % 0x40, 0x80 + n / 0x40 % 0x40,
      0x80 + n % 0x40]

/-- UTF-8 encoding of a codepoint list. -/
def utf8Encode : List Nat → List Nat
  | [] => []
  | c :: cs => utf8EncodeChar c ++ utf8Encode cs

/-- Decode one UTF-8 encoded codepoint from the front of a byte list. -/
def utf8DecodeStep : List Nat → Option (Nat × List Nat)
  | [] => none
  | b :: rest =>
    if b < 0x80 then some (b, rest)
    else if b < 0xe0 then
      match rest with
      | b1 :: r => some ((b - 0xc0) * 0x40 + (b1 - 0x80), r)
      | [] => none
    else if b < 0xf0 then
      match rest with
      | b1 :: b2 :: r =>
        some ((b - 0xe0) * 0x1000 + (b1 - 0x80) * 0x40 + (b2 - 0x80), r)
      | _ => none
    else
      match rest with
      | b1 :: b2 :: b3 :: r =>
        some ((b - 0xf0) * 0x40000 + (b1 - 0x80) * 0x1000 + (b2 - 0x80) * 0x40 +
          (b3 - 0x80), r)
      | _ => none

/-- Fuelled UTF-8 decoding of a whole byte list back to codepoints. -/
def utf8DecodeF : Nat → List Nat → Option (List Nat)
  | _, [] => some []
  | 0, _ :: _ => none
  | fuel + 1, b :: bs =>
    match utf8DecodeStep (b :: bs) with
    | some (c, r) => (utf8DecodeF fuel r).map (fun cs => c :: cs)
    | none => none

/-- UTF-8 decoding of a whole byte list back to codepoints. -/
def utf8Decode (bs : List Nat) : Option (List Nat) := utf8DecodeF bs.length bs

/-! ## Descriptive codec over Value trees (spec §4.4, §6)

Modelled from the spec: the descriptive codec's encoder/decoder
(`crates/musli-descriptive/src/{en,de}.rs`) are not part of this snapshot;
`encoding.rs` only instantiates them.  Per spec, every value starts with a
marker selecting the decode path; integers are zigzag + continuation
varints; strings/bytes are a varint length followed by raw bytes; sequences
and maps are a varint count followed by the recursively encoded elements
(maps: key then value); options are a none marker or a some marker plus the
inner value; variants are the encoded tag followed by the encoded payload.
-/

/-- Wire encoding of a `Number`: a subkind byte, then the payload as a
continuation varint (signed payloads zigzag-transformed at their width,
float payloads transported as their bit patterns). -/
def Number.encode : Number → List Nat
  | .u8 v => 0 :: cEncode v
  | .u16 v => 1 :: cEncode v
  | .u32 v => 2 :: cEncode v
  | .u64 v => 3 :: cEncode v
  | .u128 v => 4 :: cEncode v
  | .usize v => 5 :: cEncode v
  | .i8 v => 6 :: cEncode (zigzagW 8 v)
  | .i16 v => 7 :: cEncode (zigzagW 16 v)
  | .i32 v => 8 :: cEncode (zigzagW 32 v)
  | .i64 v => 9 :: cEncode (zigzagW 64 v)
  | .i128 v => 10 :: cEncode (zigzagW 128 v)
  | .isize v => 11 :: cEncode (zigzagW 64 v)
  | .f32 b => 12 :: cEncode b
  | .f64 b => 13 :: cEncode b

/-- Wire decoding of a `Number`. -/
def Number.decode (bytes : List Nat) : Option (Number × List Nat) :=
  match bytes with
  | [] => none
  | s :: bs =>
    match cDecode bs with
    | none => none
    | some (u, r) =>
      if s = 0 then some (.u8 u, r)
      else if s = 1 then some (.u16 u, r)
      else if s = 2 then some (.u32 u, r)
      else if s = 3 then some (.u64 u, r)
      else if s = 4 then some (.u128 u, r)
      else if s = 5 then some (.usize u, r)
      else if s = 6 then some (.i8 (unzigzagW 8 u), r)
      else if s = 7 then some (.i16 (unzigzagW 16 u), r)
      else if s = 8 then some (.i32 (unzigzagW 32 u), r)
      else if s = 9 then some (.i64 (unzigzagW 64 u), r)
      else if s = 10 then some (.i128 (unzigzagW 128 u), r)
      else if s = 11 then some (.isize (unzigzagW 64 u), r)
      else if s = 12 then some (.f32 u, r)
      else if s = 13 then some (.f64 u, r)
      else none

mutual

/-- Descriptive-codec encoding of a `Value` tree: marker, then payload. -/
def Value.encode : Value → List Nat
  | .unit => [0]
  | .bool b => [1, if b then 1 else 0]
  | .chr c => 2 :: cEncode c
  | .number n => 3 :: n.encode
  | .bytes bs => 4 :: (cEncode bs.length ++ bs)
  | .str cs => 5 :: (cEncode (utf8Encode cs).length ++ utf8Encode cs)
  | .option none => [6]
  | .option (some v) => 7 :: v.encode
  | .sequence vs => 8 :: (cEncode vs.length ++ Value.encodeList vs)
  | .map es => 9 :: (cEncode es.length ++ Value.encodePairs es)
  | .variant t p => 10 :: (t.encode ++ p.encode)

def Value.encodeList : List Value → List Nat
  | [] => []
  | v :: vs => v.encode ++ Value.encodeList vs

def Value.encodePairs : List (Value × Value) → List Nat
  | [] => []
  | (k, v) :: es => k.encode ++ v.encode ++ Value.encodePairs es

end

mutual

/-- Fuelled descriptive-codec decoding of a `Value` tree.  The marker alone
selects the decode path; unknown markers and truncated input are rejected. -/
def decodeValue : Nat → List Nat → Option (Value × List Nat)
  | 0, _ => none
  | _ + 1, [] => none
  | fuel + 1, t :: bs =>
    if t = 0 then some (.unit, bs)
    else if t = 1 then
      match bs with
      | b :: r => some (.bool (b = 1), r)
      | [] => none
    else if t = 2 then
      match cDecode bs with
      | some (c, r) => some (.chr c, r)
      | none => none
    else if t = 3 then
      match Number.decode bs with
      | some (n, r) => some (.number n, r)
      | none => none
    else if t = 4 then
      match cDecode bs with
      | some (len, r) =>
        if len ≤ r.length then some (.bytes (r.take len), r.drop len) else none
      | none => none
    else if t = 5 then
      match cDecode bs with
      | some (len, r) =>
        if len ≤ r.length then
          match utf8Decode (r.take len) with
          | some cs => some (.str cs, r.drop len)
          | none => none
        else none
      | none => none
    else if t = 6 then some (.option none, bs)
    else if t = 7 then
      match decodeValue fuel bs with
      | some (v, r) => some (.option (some v), r)
      | none => none
    else if t = 8 then
      match cDecode bs with
      | some (len, r) =>
        match decodeList fuel len r with
        | some (vs, r2) => some (.sequence vs, r2)
        | none => none
      | none => none
    else if t = 9 then
      match cDecode bs with
      | some (len, r) =>
        match decodePairs fuel len r with
        | some (es, r2) => some (.map es, r2)
        | none => none
      | none => none
    else if t = 10 then
      match decodeValue fuel bs with
      | some (tv, r) =>
        match decodeValue fuel r with
        | some (pv, r2) => some (.variant tv pv, r2)
        | none => none
      | none => none
    else none

def decodeList : Nat → Nat → List Nat → Option (List Value × List Nat)
  | _, 0, bs => some ([], bs)
  | 0, _ + 1, _ => none
  | fuel + 1, n + 1, bs =>
    match decodeValue fuel bs with
    | some (v, r) =>
      match decodeList fuel n r with
      | some (vs, r2) => some (v :: vs, r2)
      | none => none
    | none => none

def decodePairs : Nat → Nat → List Nat → Option (List (Value × Value) × List Nat)
  | _, 0, bs => some ([], bs)
  | 0, _ + 1, _ => none
  | fuel + 1, n + 1, bs =>
    match decodeValue fuel bs with
    | some (k, r) =>
      match decodeValue fuel r with
      | some (v, r2) =>
        match decodePairs fuel n r2 with
        | some (es, r3) => some ((k, v) :: es, r3)
        | none => none
      | none => none
    | none => none

end

/-- Sample `Value` tree exercising maps, strings, numbers, options, bytes,
variants and sequences. -/
def sampleValue : Value :=
  .map [(.str [0x48, 0x69], .sequence [.number (.i64 (-1)), .option (some .unit)]),
    (.bytes [255], .variant (.chr 0x2713) (.bool true))]

/-! ## Value tree encoder (crates/musli-value/src/en.rs)

Embedded from the source.  `Sink` mirrors the three `ValueOutput`
implementations (`&mut Value` slot, `&mut Vec<Value>` append,
`SomeValueWriter` wrapping); builders mirror the encoder structs, whose
`output` field stores the sink untouched until `end` writes the finished
composite exactly once.  A child encoder returned by an add-element call
targets the builder's own buffer, never the output sink; an add call is
modelled by the net effect of driving that child encoder.
-/

inductive Sink where
  | slot (v : Value)
  | list (vs : List Value)
  | someWrap (inner : Sink)

/-- `ValueOutput::write`: replace the slot, push onto the vector, or wrap
in an `Option`-present value and write to the inner sink. -/
def Sink.write : Sink → Value → Sink
  | .slot _, v => .slot v
  | .list vs, v => .list (vs ++ [v])
  | .someWrap o, v => o.write (Value.option (some v))

/-- `Encoder::encode_unit` for `ValueEncoder`: returns `Ok(())` without
writing anything to the output. -/
def ValueEncoder.encode_unit (output : Sink) : Sink := output

/-- `Encoder::encode_bool` for `ValueEncoder`: writes `Value::Bool`. -/
def ValueEncoder.encode_bool (output : Sink) (b : Bool) : Sink :=
  output.write (.bool b)

/-- `Encoder::encode_some`: the nested encoder's output is the same sink
wrapped in a `SomeValueWriter`. -/
def ValueEncoder.encode_some (output : Sink) : Sink := .someWrap output

structure SequenceValueEncoder where
  output : Sink
  values : List Value

/-- `Encoder::encode_sequence` (also `encode_pack`/`encode_tuple`): a fresh
builder holding the sink and an empty element buffer (the length hint only
pre-sizes). -/
def ValueEncoder.encode_sequence (output : Sink) (_lenHint : Nat) :
    SequenceValueEncoder := ⟨output, []⟩

/-- Net effect of `SequenceEncoder::encode_next` plus driving the returned
child encoder to write one element: the child targets `self.values`. -/
def SequenceValueEncoder.encode_next_write (b : SequenceValueEncoder)
    (v : Value) : SequenceValueEncoder := ⟨b.output, b.values ++ [v]⟩

/-- `SequenceEncoder::end`: the single write of the finished sequence. -/
def SequenceValueEncoder.end' (b : SequenceValueEncoder) : Sink :=
  b.output.write (.sequence b.values)

structure MapValueEncoder where
  output : Sink
  values : List (Value × Value)

/-- `Encoder::encode_map` (also `encode_map_entries`/`encode_struct`). -/
def ValueEncoder.encode_map (output : Sink) (_lenHint : Nat) : MapValueEncoder :=
  ⟨output, []⟩

structure PairValueEncoder where
  output : List (Value × Value)
  pair : Value × Value

/-- `PairValueEncoder::new`: pre-initialized `(Unit, Unit)` pair over the
parent's entry vector. -/
def PairValueEncoder.new (output : List (Value × Value)) : PairValueEncoder :=
  ⟨output, (.unit, .unit)⟩

/-- `MapEncoder::encode_entry` / `StructEncoder::encode_field`: a pair
builder over the parent's entry vector. -/
def MapValueEncoder.encode_entry (b : MapValueEncoder) : PairValueEncoder :=
  PairValueEncoder.new b.values

/-- Net effect of `MapEntryEncoder::encode_map_key` (or field name) plus
driving the child encoder: only the pair's first slot changes. -/
def PairValueEncoder.encode_map_key_write (b : PairValueEncoder) (k : Value) :
    PairValueEncoder := ⟨b.output, (k, b.pair.2)⟩

/-- Net effect of `MapEntryEncoder::encode_map_value` (or field value). -/
def PairValueEncoder.encode_map_value_write (b : PairValueEncoder) (v : Value) :
    PairValueEncoder := ⟨b.output, (b.pair.1, v)⟩

/-- `MapEntryEncoder::end` / `StructFieldEncoder::end`: the single push of
the finished pair onto the parent's entry vector. -/
def PairValueEncoder.end' (b : PairValueEncoder) : List (Value × Value) :=
  b.output ++ [b.pair]

/-- Net effect of one finished entry on the map builder (`encode_entry`,
key/value writes, pair `end`). -/
def MapValueEncoder.encode_entry_done (b : MapValueEncoder) (k v : Value) :
    MapValueEncoder := ⟨b.output, b.values ++ [(k, v)]⟩

/-- Replace the last element of a list (models `Vec::last_mut` updates). -/
def updateLast (f : α → α) : List α → List α
  | [] => []
  | [a] => [f a]
  | a :: rest => a :: updateLast f rest

/-- `MapEntriesEncoder::encode_map_entry_key`: pushes a `(Unit, Unit)`
placeholder; the returned child encoder targets the new last key slot. -/
def MapValueEncoder.encode_map_entry_key (b : MapValueEncoder) :
    MapValueEncoder := ⟨b.output, b.values ++ [(.unit, .unit)]⟩

/-- Net effect of driving the child returned by `encode_map_entry_key`. -/
def MapValueEncoder.write_entry_key (b : MapValueEncoder) (k : Value) :
    MapValueEncoder := ⟨b.output, updateLast (fun p => (k, p.2)) b.values⟩

/-- Net effect of driving the child returned by `encode_map_entry_value`. -/
def MapValueEncoder.write_entry_value (b : MapValueEncoder) (v : Value) :
    MapValueEncoder := ⟨b.output, updateLast (fun p => (p.1, v)) b.values⟩

/-- `MapEncoder::end` / `MapEntriesEncoder::end` / `StructEncoder::end`:
the single write of the finished map. -/
def MapValueEncoder.end' (b : MapValueEncoder) : Sink :=
  b.output.write (.map b.values)

structure VariantValueEncoder where
  output : Sink
  pair : Value × Value

/-- `Encoder::encode_variant`. -/
def ValueEncoder.encode_variant (output : Sink) : VariantValueEncoder :=
  ⟨output, (.unit, .unit)⟩

/-- Net effect of `VariantEncoder::encode_tag` plus the child write. -/
def VariantValueEncoder.encode_tag_write (b : VariantValueEncoder)
    (t : Value) : VariantValueEncoder := ⟨b.output, (t, b.pair.2)⟩

/-- Net effect of `VariantEncoder::encode_value` plus the child write. -/
def VariantValueEncoder.encode_value_write (b : VariantValueEncoder)
    (v : Value) : VariantValueEncoder := ⟨b.output, (b.pair.1, v)⟩

/-- `VariantEncoder::end`: the single write of the finished variant. -/
def VariantValueEncoder.end' (b : VariantValueEncoder) : Sink :=
  b.output.write (.variant b.pair.1 b.pair.2)

structure VariantSequenceEncoder where
  output : Sink
  variant : Value
  values : List Value

/-- `Encoder::encode_tuple_variant`: the tag is encoded into a local slot
(`Value::Unit` pre-initialized), never into the output sink. -/
def ValueEncoder.encode_tuple_variant (output : Sink) (tag : Value)
    (_lenHint : Nat) : VariantSequenceEncoder := ⟨output, tag, []⟩

def VariantSequenceEncoder.encode_next_write (b : VariantSequenceEncoder)
    (v : Value) : VariantSequenceEncoder := ⟨b.output, b.variant, b.values ++ [v]⟩

/-- `SequenceEncoder::end` for tuple variants. -/
def VariantSequenceEncoder.end' (b : VariantSequenceEncoder) : Sink :=
  b.output.write (.variant b.variant (.sequence b.values))

structure VariantStructEncoder where
  output : Sink
  variant : Value
  fields : List (Value × Value)

/-- `Encoder::encode_struct_variant`: like tuple variants, the tag is
encoded into a local slot. -/
def ValueEncoder.encode_struct_variant (output : Sink) (tag : Value)
    (_lenHint : Nat) : VariantStructEncoder := ⟨output, tag, []⟩

/-- Net effect of one finished field (`encode_field`, writes, pair end). -/
def VariantStructEncoder.encode_field_done (b : VariantStructEncoder)
    (k v : Value) : VariantStructEncoder :=
  ⟨b.output, b.variant, b.fields ++ [(k, v)]⟩

/-- `StructEncoder::end` for struct variants. -/
def VariantStructEncoder.end' (b : VariantStructEncoder) : Sink :=
  b.output.write (.variant b.variant (.map b.fields))

/-! ## Pooled System allocator (crates/musli/src/allocator/system.rs)

Embedded from the source, with the raw free-list pointers replaced by
region identifiers: `head` is the free list (most recently freed first),
`nextId` counts the regions ever created (`Box::leak` calls), and `data`
gives each region's byte contents.
-/

structure Internal where
  head : List Nat
  nextId : Nat
  data : Nat → List Nat

/-- `Internal::alloc`: pop the free-list head, or create a fresh empty
growable region. -/
def Internal.alloc (s : Internal) : Nat × Internal :=
  match s.head with
  | id :: rest => (id, { s with head := rest })
  | [] =>
    (s.nextId,
      { head := [],
        nextId := s.nextId + 1,
        data := fun i => if i = s.nextId then [] else s.data i })

/-- `Internal::free` (run by `Drop for SystemBuf`): clear the region's
contents and push it onto the head of the free list. -/
def Internal.free (s : Internal) (id : Nat) : Internal :=
  { s with
      head := id :: s.head,
      data := fun i => if i = id then [] else s.data i }

/-- `Allocator::alloc` for `System`: always `Some`. -/
def System.alloc (s : Internal) : Option (Nat × Internal) :=
  some (Internal.alloc s)

/-- `Buf::write` for `SystemBuf`: `extend_from_slice`, returning `true`. -/
def SystemBuf.write (data : List Nat) (bytes : List Nat) : List Nat × Bool :=
  (data ++ bytes, true)

/-- `Buf::len` for `SystemBuf`. -/
def SystemBuf.len (data : List Nat) : Nat := data.length

/-- `Buf::as_slice` for `SystemBuf`. -/
def SystemBuf.as_slice (data : List Nat) : List Nat := data

/-- Fold a sequence of `write` calls over a buffer's contents. -/
def SystemBuf.writeAll (data : List Nat) (ws : List (List Nat)) : List Nat :=
  ws.foldl (fun d w => (SystemBuf.write d w).1) data

/-! ## Pool usage traces (C6) -/

inductive AllocOp where
  | acquire
  | write (id : Nat) (bytes : List Nat)
  | release (id : Nat)

/-- Pool execution state: the allocator internals, the identifiers of the
live (not yet released) buffer handles, and the peak number of
simultaneously live handles seen so far. -/
structure PoolState where
  internal : Internal
  live : List Nat
  peak : Nat

/-- One trace step.  `acquire` hands out a region and records liveness;
`write` appends to a live region's contents; `release` (scope exit of a
handle) frees the region.  A release or write naming a non-live identifier
corresponds to no Rust execution (handles are exclusive and released
exactly once, by `Drop`) and is a no-op. -/
def PoolState.step (st : PoolState) : AllocOp → PoolState
  | .acquire =>
    let a := Internal.alloc st.internal
    { internal := a.2,
      live := a.1 :: st.live,
      peak := max st.peak (st.live.length + 1) }
  | .write id bs =>
    if id ∈ st.live then
      { st with
          internal :=
            { st.internal with
                data := fun i =>
                  if i = id then (SystemBuf.write (st.internal.data id) bs).1
                  else st.internal.data i } }
    else st
  | .release id =>
    if id ∈ st.live then
      { internal := Internal.free st.internal id,
        live := st.live.erase id,
        peak := st.peak }
    else st

def PoolState.run (st : PoolState) (ops : List AllocOp) : PoolState :=
  ops.foldl PoolState.step st

def PoolState.init : PoolState := ⟨⟨[], 0, fun _ => []⟩, [], 0⟩

/-- The conservation invariant: every region ever created is either live or
on the free list, and that total never exceeds the peak. -/
def PoolState.inv (st : PoolState) : Prop :=
  st.internal.nextId = st.live.length + st.internal.head.length ∧
    st.live.length + st.internal.head.length ≤ st.peak

/-- One acquire-write-release cycle on the sole region. -/
def acquireWriteRelease : List AllocOp := [.acquire, .write 0 [42], .release 0]

def cycleOps : Nat → List AllocOp
  | 0 => []
  | n + 1 => acquireWriteRelease ++ cycleOps n

/-! ## Slice-backed parser (crates/musli/src/json/parser/slice_parser.rs)

Embedded from the source.  `usize` arithmetic is `Nat` with an explicit
`% 2 ^ 64` where the source uses `wrapping_add`; the context position
(`Context::advance`) is carried as an explicit counter.
-/

structure SliceParser where
  slice : List Nat
  index : Nat

/-- `SliceParser::skip`: wrapping-add the count, reject when the outcome
passes the end of the slice or wrapped around, else advance.  Returns the
parser, the context position and the error, if any. -/
def SliceParser.skip (p : SliceParser) (cx : Nat) (n : Nat) :
    SliceParser × Nat × Option String :=
  let outcome := (p.index + n) % 2 ^ 64
  if outcome > p.slice.length || outcome < p.index then
    (p, cx, some ("Buffer underflow"))
  else
    ({ p with index := outcome }, cx + n, none)

/-- `SliceParser::read`: like `skip` but also yields the bytes
`slice[index..outcome]`. -/
def SliceParser.read (p : SliceParser) (cx : Nat) (n : Nat) :
    SliceParser × Nat × Except String (List Nat) :=
  let outcome := (p.index + n) % 2 ^ 64
  if outcome > p.slice.length || outcome < p.index then
    (p, cx, .error ("Buffer underflow"))
  else
    ({ p with index := outcome }, cx + n,
      .ok ((p.slice.take outcome).drop p.index))

/-! ## Three-way unsized-data visitation for String decoding
(crates/musli-core/src/impls/alloc.rs, spec §4.3)

Embedded from the source: the `UnsizedVisitor` used by `Decode for String`
returns the owned buffer unchanged from `visit_owned`, delegates
`visit_borrowed` to `visit_ref`, and copies the transient text to a new
owned `String` in `visit_ref`.
-/

inductive Channel where
  | owned
  | borrowed
  | ref

/-- `visit_owned`: the driver transfers ownership; the visitor returns the
materialized buffer unchanged. -/
def StringVisitor.visit_owned (value : String) : Except String String :=
  .ok value

/-- `visit_ref`: the borrow is transient, so the visitor copies the text
into a new owned `String` (`to_owned`). -/
def StringVisitor.visit_ref (s : String) : Except String String :=
  .ok (String.mk s.data)

/-- `visit_borrowed`: delegates to `visit_ref`. -/
def StringVisitor.visit_borrowed (s : String) : Except String String :=
  StringVisitor.visit_ref s

/-- A driver delivering the text through one of the three channels. -/
def decode_string_via : Channel → String → Except String String
  | .owned, s => StringVisitor.visit_owned s
  | .borrowed, s => StringVisitor.visit_borrowed s
  | .ref, s => StringVisitor.visit_ref s

/-! ## Context error rendering and trace collection (C3)

Modelled from the spec: the JSON format driver and the tracing context
(`SystemContext`) are outside this snapshot; only the
`tests/trace_collection.rs` test and the spec's error surface
(`<path>: <message> (at bytes <start>-<end>)`, §4.1/§6) describe them.
The scanner below decodes the actual encoded bytes, tracking byte
positions, pushing the `.values` field entry and the `[key]` map-key entry
around each value, and recording an "Invalid numeric" error spanning the
first value byte whenever a number is expected but the value does not
start numerically.
-/

inductive PathEntry where
  | field (name : String)
  | key (repr : String)

def renderEntry : PathEntry → String
  | .field n => ("." : String) ++ n
  | .key k => ("[" : String) ++ k ++ ("]")

/-- The dotted/bracketed path: concatenation of the open entries in order. -/
def renderPath (entries : List PathEntry) : String :=
  entries.foldl (fun acc e => acc ++ renderEntry e) ("")

/-- `<path>: <message> (at bytes <start>-<end>)`. -/
def renderError (path : List PathEntry) (msg : String) (startPos endPos : Nat) :
    String :=
  renderPath path ++ (": ") ++ msg ++ (" (at bytes ") ++ toString startPos ++
    ("-") ++ toString endPos ++ (")")

def jsonStringLit (s : String) : String := ("\"") ++ s ++ ("\"")

/-- JSON encoding of the `From` record `{ values: <map> }` with
string-to-string entries, as the json driver produces it. -/
def jsonEncodeFrom (pairs : List (String × String)) : String :=
  ("\x7b") ++ jsonStringLit ("values") ++ (":") ++ ("\x7b") ++
    String.intercalate (",")
      (pairs.map (fun p => jsonStringLit p.1 ++ (":") ++ jsonStringLit p.2)) ++
    ("\x7d") ++ ("\x7d")

def expectChar (c : Char) : List Char → Nat → Option (List Char × Nat)
  | x :: rest, pos => if x = c then some (rest, pos + 1) else none
  | [], _ => none

def takeUntilQuote : List Char → Option (List Char × List Char)
  | [] => none
  | c :: rest =>
    if c = ('"') then some ([], rest)
    else
      match takeUntilQuote rest with
      | some (content, r) => some (c :: content, r)
      | none => none

/-- Scan a JSON string literal, returning its content, the remaining input
and the position just past the closing quote. -/
def scanStringLit (cs : List Char) (pos : Nat) : Option (String × List Char × Nat) :=
  match expectChar ('"') cs pos with
  | some (rest, p1) =>
    match takeUntilQuote rest with
    | some (content, r) => some (String.mk content, r, p1 + content.length + 1)
    | none => none
  | none => none

def isNumericStart (c : Char) : Bool := c.isDigit || c = ('-')

/-- Decode the entries of the traced `values` map expecting numeric
values, collecting (rather than aborting on) an "Invalid numeric" error
for every value that does not start numerically.  The byte range of an
error spans the first byte of the offending value. -/
def decodeFieldEntries :
    Nat → List Char → Nat → List String → Option (List String × List Char × Nat)
  | 0, _, _, _ => none
  | fuel + 1, cs, pos, errs =>
    match scanStringLit cs pos with
    | some (k, cs1, p1) =>
      match expectChar (':') cs1 p1 with
      | some (cs2, p2) =>
        match cs2 with
        | c :: _ =>
          if isNumericStart c then none
          else
            match scanStringLit cs2 p2 with
            | some (_, cs3, p3) =>
              let errs2 := errs ++
                [renderError [.field ("values"), .key k] ("Invalid numeric")
                  p2 (p2 + 1)]
              match cs3 with
              | (',') :: cs4 => decodeFieldEntries fuel cs4 (p3 + 1) errs2
              | c2 :: cs4 =>
                if c2 = ('\x7d') then some (errs2, cs4, p3 + 1) else none
              | [] => none
            | none => none
        | [] => none
      | none => none
    | none => none

/-- Collecting-mode decode of the encoded `From` record into the
`Collection` record whose `values` field expects numbers: scans the whole
input and returns every collected error (a total function — no panic). -/
def traceCollect (s : String) : Option (List String) :=
  match expectChar ('\x7b') s.data 0 with
  | some (cs1, p1) =>
    match scanStringLit cs1 p1 with
    | some (fname, cs2, p2) =>
      if fname = ("values") then
        match expectChar (':') cs2 p2 with
        | some (cs3, p3) =>
          match expectChar ('\x7b') cs3 p3 with
          | some (cs4, p4) =>
            match decodeFieldEntries (cs4.length + 1) cs4 p4 [] with
            | some (errs, cs5, p5) =>
              match expectChar ('\x7d') cs5 p5 with
              | some _ => some errs
              | none => none
            | none => none
          | none => none
        | none => none
      else none
    | none => none
  | none => none

/-- Fail-fast mode surfaces the first collected error. -/
def traceFailFast (s : String) : Option String :=
  (traceCollect s).bind List.head?

/-! ## Theorems -/

/-! ## Bitwise helper lemmas -/

/-- XOR with an all-ones mask of width `w` is complement within `w` bits. -/
theorem xor_all_ones {w x : Nat} (h : x < 2 ^ w) :
    x ^^^ (2 ^ w - 1) = 2 ^ w - 1 - x := by
  apply Nat.eq_of_testBit_eq
  intro i
  have hsub : 2 ^ w - 1 - x = 2 ^ w - (x + 1) := by omega
  rw [Nat.testBit_xor, hsub, Nat.testBit_two_pow_sub_succ h,
    Nat.testBit_two_pow_sub_one]
  by_cases hi : i < w
  · simp [hi]
  · have hx : x.testBit i = false := by
      apply Nat.testBit_lt_two_pow
      calc x < 2 ^ w := h
        _ ≤ 2 ^ i := Nat.pow_le_pow_right (by omega) (by omega)
    simp [hi, hx]

theorem unzigzagW_zigzagW (w : Nat) (hw : 1 ≤ w) (n : Int)
    (h1 : -(2 ^ (w - 1)) ≤ n) (h2 : n < 2 ^ (w - 1)) :
    unzigzagW w (zigzagW w n) = n := by
  have hpN : (2 : Nat) ^ w = 2 * 2 ^ (w - 1) := by
    rw [← Nat.pow_succ']
    congr 1
    omega
  have hpI : (2 : Int) ^ w = 2 * ((2 ^ (w - 1) : Nat) : Int) := by
    push_cast
    rw [← pow_succ']
    congr 1
    omega
  have hpI2 : ((2 : Int) ^ (w - 1)) = ((2 ^ (w - 1) : Nat) : Int) := by
    push_cast
    ring
  rw [hpI2] at h1 h2
  have hppos : 0 < (2 : Nat) ^ (w - 1) := pow_pos (by omega) _
  rcases le_or_lt 0 n with hn | hn
  · -- non-negative: zigzag is 2n, even
    have hmod : n % ((2 : Int) ^ w) = n :=
      Int.emod_eq_of_lt hn (by rw [hpI]; omega)
    have ht : toTwos w n = n.toNat := by
      unfold toTwos; rw [hmod]
    have htlt : n.toNat < 2 ^ (w - 1) := by omega
    have hz : zigzagW w n = 2 * n.toNat := by
      unfold zigzagW
      rw [ht, Nat.shiftLeft_eq]
      have h2n : n.toNat * 2 ^ 1 = 2 * n.toNat := by ring
      rw [h2n, if_neg (by omega), Nat.xor_zero,
        Nat.mod_eq_of_lt (by rw [hpN]; omega)]
    rw [hz]
    unfold unzigzagW
    have hsh : (2 * n.toNat) >>> 1 = n.toNat := by
      rw [Nat.shiftRight_succ, Nat.shiftRight_zero]; omega
    rw [if_neg (by omega), hsh, Nat.xor_zero]
    unfold fromTwos
    rw [if_pos htlt]; omega
  · -- negative: zigzag is -2n - 1, odd
    have hmod : n % ((2 : Int) ^ w) = n + 2 ^ w := by
      have e1 := @Int.add_mul_emod_self_left n ((2 : Int) ^ w) 1
      rw [mul_one] at e1
      rw [← e1]
      exact Int.emod_eq_of_lt (by rw [hpI]; omega) (by rw [hpI]; omega)
    have ht : toTwos w n = (n + 2 * ((2 ^ (w - 1) : Nat) : Int)).toNat := by
      unfold toTwos; rw [hmod, hpI]
    have htge : 2 ^ (w - 1) ≤ (n + 2 * ((2 ^ (w - 1) : Nat) : Int)).toNat := by
      omega
    have htlt : (n + 2 * ((2 ^ (w - 1) : Nat) : Int)).toNat < 2 * 2 ^ (w - 1) := by
      omega
    have hz : zigzagW w n = (-2 * n - 1).toNat := by
      unfold zigzagW
      rw [ht, Nat.shiftLeft_eq, if_pos htge]
      have hmul : (n + 2 * ((2 ^ (w - 1) : Nat) : Int)).toNat * 2 ^ 1 =
          2 * (n + 2 * ((2 ^ (w - 1) : Nat) : Int)).toNat := by ring
      rw [hmul]
      have hmod2 : 2 * (n + 2 * ((2 ^ (w - 1) : Nat) : Int)).toNat % 2 ^ w =
          2 * (n + 2 * ((2 ^ (w - 1) : Nat) : Int)).toNat - 2 ^ w := by
        rw [Nat.mod_eq_sub_mod (by rw [hpN]; omega),
          Nat.mod_eq_of_lt (by rw [hpN]; omega)]
      rw [hmod2, xor_all_ones (by rw [hpN]; omega), hpN]
      omega
    rw [hz]
    unfold unzigzagW
    have hodd : (-2 * n - 1).toNat % 2 = 1 := by omega
    have hsh : ((-2 * n - 1).toNat) >>> 1 = (-n - 1).toNat := by
      rw [Nat.shiftRight_succ, Nat.shiftRight_zero]; omega
    rw [if_pos hodd, hsh,
      xor_all_ones (show (-n - 1).toNat < 2 ^ w by rw [hpN]; omega)]
    unfold fromTwos
    rw [if_neg (by rw [hpN]; omega), hpN, hpI]
    omega

theorem cDecode_cEncodeF (fuel : Nat) :
    ∀ u r, u ≤ fuel ∨ u < 128 → cDecode (cEncodeF fuel u ++ r) = some (u, r) := by
  induction fuel with
  | zero =>
    intro u r h
    have hu : u < 128 := by omega
    simp [cEncodeF, cDecode, hu]
  | succ fuel ih =>
    intro u r h
    by_cases hu : u < 128
    · simp [cEncodeF, cDecode, hu]
    · rw [cEncodeF, if_neg hu, List.cons_append]
      rw [cDecode, if_neg (show ¬u % 128 + 128 < 128 by omega),
        ih (u / 128) r (Or.inl (by omega))]
      simp only [Option.some.injEq, Prod.mk.injEq]
      refine ⟨by omega, trivial⟩

theorem cDecode_cEncode (u : Nat) (r : List Nat) :
    cDecode (cEncode u ++ r) = some (u, r) :=
  cDecode_cEncodeF u u r (Or.inl le_rfl)

/-- C1: for every signed 64-bit integer `n` (including `0`, `-1`, `i64::MIN`
and `i64::MAX`), applying the zigzag transform, then continuation-bit
variable-length encoding, then varint decoding, then the inverse zigzag
transform yields exactly `n`. -/
theorem i64_zigzag_varint_roundtrip (n : Int) (r : List Nat)
    (h1 : -(2 ^ 63) ≤ n) (h2 : n < 2 ^ 63) :
    decodeI64 (encodeI64 n ++ r) = some (n, r) := by
  unfold decodeI64 encodeI64
  rw [cDecode_cEncode]
  show some (unzigzagW 64 (zigzagW 64 n), r) = some (n, r)
  rw [unzigzagW_zigzagW 64 (by omega) n (by norm_num at h1 ⊢; omega) (by norm_num at h2 ⊢; omega)]

/-- Witness for C1 at `n = i64::MIN`. -/
theorem i64_zigzag_varint_roundtrip_witness :
    -(2 ^ 63) ≤ (-9223372036854775808 : Int) ∧
      decodeI64 (encodeI64 (-9223372036854775808)) =
        some ((-9223372036854775808 : Int), []) := by
  refine ⟨by norm_num, ?_⟩
  have h := i64_zigzag_varint_roundtrip (-9223372036854775808) []
    (by norm_num) (by norm_num)
  simpa using h

theorem utf8DecodeStep_encodeChar (n : Nat) (hn : n < 0x110000) (r : List Nat) :
    utf8DecodeStep (utf8EncodeChar n ++ r) = some (n, r) := by
  unfold utf8EncodeChar
  by_cases h1 : n < 0x80
  · rw [if_pos h1]
    show utf8DecodeStep (n :: r) = some (n, r)
    simp only [utf8DecodeStep]
    rw [if_pos h1]
  · rw [if_neg h1]
    by_cases h2 : n < 0x800
    · rw [if_pos h2]
      show utf8DecodeStep ((0xc0 + n / 0x40) :: (0x80 + n % 0x40) :: r) =
        some (n, r)
      simp only [utf8DecodeStep]
      rw [if_neg (by omega), if_pos (by omega)]
      simp only [Option.some.injEq, Prod.mk.injEq]
      refine ⟨by omega, trivial⟩
    · rw [if_neg h2]
      by_cases h3 : n < 0x10000
      · rw [if_pos h3]
        show utf8DecodeStep
            ((0xe0 + n / 0x1000) :: (0x80 + n / 0x40 % 0x40) ::
              (0x80 + n % 0x40) :: r) = some (n, r)
        simp only [utf8DecodeStep]
        rw [if_neg (by omega), if_neg (by omega), if_pos (by omega)]
        simp only [Option.some.injEq, Prod.mk.injEq]
        refine ⟨by omega, trivial⟩
      · rw [if_neg h3]
        show utf8DecodeStep
            ((0xf0 + n / 0x40000) :: (0x80 + n / 0x1000 % 0x40) ::
              (0x80 + n / 0x40 % 0x40) :: (0x80 + n % 0x40) :: r) = some (n, r)
        simp only [utf8DecodeStep]
        rw [if_neg (by omega), if_neg (by omega), if_neg (by omega)]
        simp only [Option.some.injEq, Prod.mk.injEq]
        refine ⟨by omega, trivial⟩

theorem utf8EncodeChar_length_pos (n : Nat) : 0 < (utf8EncodeChar n).length := by
  unfold utf8EncodeChar
  split
  · simp
  · split
    · simp
    · split <;> simp

theorem utf8DecodeF_encode (cs : List Nat) (h : cs.all validCodepoint = true) :
    ∀ fuel, (utf8Encode cs).length ≤ fuel →
      utf8DecodeF fuel (utf8Encode cs) = some cs := by
  induction cs with
  | nil =>
    intro fuel _
    cases fuel <;> rfl
  | cons c cs ih =>
    intro fuel hfuel
    simp only [List.all_cons, Bool.and_eq_true] at h
    have hc : c < 0x110000 := by
      have := h.1
      unfold validCodepoint at this
      simp only [Bool.or_eq_true, decide_eq_true_eq, Bool.and_eq_true] at this
      omega
    have hstep : utf8DecodeStep (utf8Encode (c :: cs)) = some (c, utf8Encode cs) := by
      show utf8DecodeStep (utf8EncodeChar c ++ utf8Encode cs) = _
      exact utf8DecodeStep_encodeChar c hc _
    have hlen : 0 < (utf8Encode (c :: cs)).length := by
      show 0 < (utf8EncodeChar c ++ utf8Encode cs).length
      rw [List.length_append]
      have := utf8EncodeChar_length_pos c
      omega
    obtain ⟨b, bs, hbs⟩ : ∃ b bs, utf8Encode (c :: cs) = b :: bs := by
      cases hx : utf8Encode (c :: cs) with
      | nil => rw [hx] at hlen; simp at hlen
      | cons b bs => exact ⟨b, bs, rfl⟩
    obtain ⟨f, rfl⟩ : ∃ f, fuel = f + 1 := by
      have : (utf8Encode (c :: cs)).length ≤ fuel := hfuel
      cases fuel with
      | zero => omega
      | succ f => exact ⟨f, rfl⟩
    rw [hbs]
    show (match utf8DecodeStep (b :: bs) with
      | some (c, r) => (utf8DecodeF f r).map (fun cs => c :: cs)
      | none => none) = some (c :: cs)
    rw [← hbs, hstep]
    have hrest : (utf8Encode cs).length ≤ f := by
      have h1 : (utf8Encode (c :: cs)).length =
          (utf8EncodeChar c).length + (utf8Encode cs).length := by
        show (utf8EncodeChar c ++ utf8Encode cs).length = _
        rw [List.length_append]
      have := utf8EncodeChar_length_pos c
      omega
    show (utf8DecodeF f (utf8Encode cs)).map (fun cs => c :: cs) = some (c :: cs)
    rw [ih h.2 f hrest]
    rfl

theorem utf8Decode_utf8Encode (cs : List Nat)
    (h : cs.all validCodepoint = true) : utf8Decode (utf8Encode cs) = some cs :=
  utf8DecodeF_encode cs h _ (le_refl _)

theorem Number.decode_encode (n : Number) (h : n.wf = true) (r : List Nat) :
    Number.decode (n.encode ++ r) = some (n, r) := by
  cases n <;>
    simp only [Number.wf, decide_eq_true_eq, Bool.and_eq_true] at h <;>
    simp only [Number.encode, List.cons_append, Number.decode, cDecode_cEncode] <;>
    norm_num <;>
    rw [unzigzagW_zigzagW _ (by omega) _ (by norm_num at h ⊢; omega)
      (by norm_num at h ⊢; omega)]

theorem decodeList_succ (fuel n : Nat) (bs : List Nat) :
    decodeList (fuel + 1) (n + 1) bs =
      match decodeValue fuel bs with
      | some (v, r) =>
        match decodeList fuel n r with
        | some (vs, r2) => some (v :: vs, r2)
        | none => none
      | none => none := rfl

theorem decodePairs_succ (fuel n : Nat) (bs : List Nat) :
    decodePairs (fuel + 1) (n + 1) bs =
      match decodeValue fuel bs with
      | some (k, r) =>
        match decodeValue fuel r with
        | some (v, r2) =>
          match decodePairs fuel n r2 with
          | some (es, r3) => some ((k, v) :: es, r3)
          | none => none
        | none => none
      | none => none := rfl

theorem Value.size_pos (v : Value) : 0 < v.size := by
  cases v with
  | option o => cases o <;> simp [Value.size]
  | unit => simp [Value.size]
  | bool b => simp [Value.size]
  | chr c => simp [Value.size]
  | number n => simp [Value.size]
  | bytes bs => simp [Value.size]
  | str cs => simp [Value.size]
  | sequence vs => simp [Value.size]
  | map es => simp [Value.size]
  | variant t p => simp [Value.size]

/-- Joint decode-inverts-encode statement for values, element lists and
entry-pair lists, by induction on the decoding fuel. -/
theorem decode_encode_all (fuel : Nat) :
    (∀ (v : Value) (rest : List Nat), v.wf = true → v.size ≤ fuel →
      decodeValue fuel (v.encode ++ rest) = some (v, rest)) ∧
    (∀ (vs : List Value) (rest : List Nat), Value.wfList vs = true →
      Value.sizeList vs ≤ fuel →
      decodeList fuel vs.length (Value.encodeList vs ++ rest) = some (vs, rest)) ∧
    (∀ (es : List (Value × Value)) (rest : List Nat), Value.wfPairs es = true →
      Value.sizePairs es ≤ fuel →
      decodePairs fuel es.length (Value.encodePairs es ++ rest) = some (es, rest)) := by
  induction fuel with
  | zero =>
    refine ⟨?_, ?_, ?_⟩
    · intro v rest _ hsz
      have := Value.size_pos v
      omega
    · intro vs rest _ hsz
      cases vs with
      | nil => rfl
      | cons v vs =>
        simp only [Value.sizeList] at hsz
        omega
    · intro es rest _ hsz
      cases es with
      | nil => rfl
      | cons e es =>
        obtain ⟨k, v⟩ := e
        simp only [Value.sizePairs] at hsz
        omega
  | succ fuel ih =>
    obtain ⟨ih1, ih2, ih3⟩ := ih
    refine ⟨?_, ?_, ?_⟩
    · intro v rest hwf hsz
      cases v with
      | unit => rfl
      | bool b => cases b <;> rfl
      | chr c =>
        show decodeValue (fuel + 1) (2 :: (cEncode c ++ rest)) = _
        simp [decodeValue, cDecode_cEncode]
      | number n =>
        simp only [Value.wf] at hwf
        show decodeValue (fuel + 1) (3 :: (Number.encode n ++ rest)) = _
        simp [decodeValue, Number.decode_encode n hwf rest]
      | bytes bs =>
        show decodeValue (fuel + 1)
          (4 :: ((cEncode bs.length ++ bs) ++ rest)) = _
        rw [List.append_assoc]
        simp [decodeValue, cDecode_cEncode, List.take_left, List.drop_left]
      | str cs =>
        simp only [Value.wf] at hwf
        show decodeValue (fuel + 1)
          (5 :: ((cEncode (utf8Encode cs).length ++ utf8Encode cs) ++ rest)) = _
        rw [List.append_assoc]
        simp [decodeValue, cDecode_cEncode, List.take_left, List.drop_left,
          utf8Decode_utf8Encode cs hwf]
      | option o =>
        cases o with
        | none => rfl
        | some v =>
          simp only [Value.wf] at hwf
          simp only [Value.size] at hsz
          show decodeValue (fuel + 1) (7 :: (v.encode ++ rest)) = _
          simp [decodeValue, ih1 v rest hwf (by omega)]
      | sequence vs =>
        simp only [Value.wf] at hwf
        simp only [Value.size] at hsz
        show decodeValue (fuel + 1)
          (8 :: ((cEncode vs.length ++ Value.encodeList vs) ++ rest)) = _
        rw [List.append_assoc]
        simp [decodeValue, cDecode_cEncode, ih2 vs rest hwf (by omega)]
      | map es =>
        simp only [Value.wf] at hwf
        simp only [Value.size] at hsz
        show decodeValue (fuel + 1)
          (9 :: ((cEncode es.length ++ Value.encodePairs es) ++ rest)) = _
        rw [List.append_assoc]
        simp [decodeValue, cDecode_cEncode, ih3 es rest hwf (by omega)]
      | variant t p =>
        simp only [Value.wf, Bool.and_eq_true] at hwf
        simp only [Value.size] at hsz
        show decodeValue (fuel + 1) (10 :: ((t.encode ++ p.encode) ++ rest)) = _
        rw [List.append_assoc]
        simp [decodeValue, ih1 t (p.encode ++ rest) hwf.1 (by omega),
          ih1 p rest hwf.2 (by omega)]
    · intro vs rest hwf hsz
      cases vs with
      | nil => rfl
      | cons v vs =>
        simp only [Value.wfList, Bool.and_eq_true] at hwf
        simp only [Value.sizeList] at hsz
        show decodeList (fuel + 1) (vs.length + 1)
          ((v.encode ++ Value.encodeList vs) ++ rest) = _
        rw [List.append_assoc, decodeList_succ,
          ih1 v (Value.encodeList vs ++ rest) hwf.1 (by omega)]
        simp [ih2 vs rest hwf.2 (by omega)]
    · intro es rest hwf hsz
      cases es with
      | nil => rfl
      | cons e es =>
        obtain ⟨k, v⟩ := e
        simp only [Value.wfPairs, Bool.and_eq_true] at hwf
        simp only [Value.sizePairs] at hsz
        show decodePairs (fuel + 1) (es.length + 1)
          ((k.encode ++ v.encode ++ Value.encodePairs es) ++ rest) = _
        rw [List.append_assoc, List.append_assoc, decodePairs_succ,
          ih1 k (v.encode ++ (Value.encodePairs es ++ rest)) hwf.1.1 (by omega)]
        simp [ih1 v (Value.encodePairs es ++ rest) hwf.1.2 (by omega),
          ih3 es rest hwf.2 (by omega)]

/-- C2: for every well-formed `Value` tree (bounded by the decoding fuel),
encoding it through the descriptive codec and decoding the resulting bytes
back yields a structurally equal `Value` tree, with `Map` entries in the
original order (list equality preserves entry order). -/
theorem value_tree_roundtrip (v : Value) (rest : List Nat) (fuel : Nat)
    (hwf : v.wf = true) (hfuel : v.size ≤ fuel) :
    decodeValue fuel (v.encode ++ rest) = some (v, rest) :=
  (decode_encode_all fuel).1 v rest hwf hfuel

/-- Witness for C2 at a concrete tree (with trailing input left over). -/
theorem value_tree_roundtrip_witness :
    (sampleValue.wf = true ∧ sampleValue.size ≤ 64) ∧
      decodeValue 64 (sampleValue.encode ++ [7, 7]) = some (sampleValue, [7, 7]) :=
  ⟨⟨by decide, by decide⟩, value_tree_roundtrip sampleValue [7, 7] 64 (by decide) (by decide)⟩

/-- C4: for every composite builder of the value-tree driver (sequence,
map, map-entries, struct, pair, variant, tuple-variant, struct-variant),
the output sink is not modified by obtaining the builder or by any
add-element/field/entry call; the finished composite is written to the
sink exactly once, inside `end` — it equals a single `Sink.write` of the
composite onto the stored sink — so a builder never driven to `end`
(any fold of add calls from creation) leaves the sink unchanged. -/
theorem builders_finalize_only_in_end :
    (∀ (out : Sink) (len : Nat),
      (ValueEncoder.encode_sequence out len).output = out) ∧
    (∀ b v, (SequenceValueEncoder.encode_next_write b v).output = b.output) ∧
    (∀ b, SequenceValueEncoder.end' b = Sink.write b.output (.sequence b.values)) ∧
    (∀ (out : Sink) (len : Nat) (ws : List Value),
      (ws.foldl SequenceValueEncoder.encode_next_write
        (ValueEncoder.encode_sequence out len)).output = out) ∧
    (∀ (out : Sink) (len : Nat), (ValueEncoder.encode_map out len).output = out) ∧
    (∀ b k v, (MapValueEncoder.encode_entry_done b k v).output = b.output) ∧
    (∀ b, (MapValueEncoder.encode_map_entry_key b).output = b.output) ∧
    (∀ b k, (MapValueEncoder.write_entry_key b k).output = b.output) ∧
    (∀ b v, (MapValueEncoder.write_entry_value b v).output = b.output) ∧
    (∀ b, MapValueEncoder.end' b = Sink.write b.output (.map b.values)) ∧
    (∀ (out : Sink) (len : Nat) (ws : List (Value × Value)),
      (ws.foldl (fun b p => MapValueEncoder.encode_entry_done b p.1 p.2)
        (ValueEncoder.encode_map out len)).output = out) ∧
    (∀ b, (MapValueEncoder.encode_entry b).output = b.values) ∧
    (∀ vals, (PairValueEncoder.new vals).output = vals) ∧
    (∀ b k, (PairValueEncoder.encode_map_key_write b k).output = b.output) ∧
    (∀ b v, (PairValueEncoder.encode_map_value_write b v).output = b.output) ∧
    (∀ b, PairValueEncoder.end' b = b.output ++ [b.pair]) ∧
    (∀ out, (ValueEncoder.encode_variant out).output = out) ∧
    (∀ b t, (VariantValueEncoder.encode_tag_write b t).output = b.output) ∧
    (∀ b v, (VariantValueEncoder.encode_value_write b v).output = b.output) ∧
    (∀ b, VariantValueEncoder.end' b =
      Sink.write b.output (.variant b.pair.1 b.pair.2)) ∧
    (∀ (out : Sink) (tag : Value) (len : Nat),
      (ValueEncoder.encode_tuple_variant out tag len).output = out) ∧
    (∀ b v, (VariantSequenceEncoder.encode_next_write b v).output = b.output) ∧
    (∀ b, VariantSequenceEncoder.end' b =
      Sink.write b.output (.variant b.variant (.sequence b.values))) ∧
    (∀ (out : Sink) (tag : Value) (len : Nat),
      (ValueEncoder.encode_struct_variant out tag len).output = out) ∧
    (∀ b k v, (VariantStructEncoder.encode_field_done b k v).output = b.output) ∧
    (∀ b, VariantStructEncoder.end' b =
      Sink.write b.output (.variant b.variant (.map b.fields))) := by
  refine ⟨fun _ _ => rfl, fun _ _ => rfl, fun _ => rfl, ?_, fun _ _ => rfl,
    fun _ _ _ => rfl, fun _ => rfl, fun _ _ => rfl, fun _ _ => rfl, fun _ => rfl,
    ?_, fun _ => rfl, fun _ => rfl, fun _ _ => rfl, fun _ _ => rfl, fun _ => rfl,
    fun _ => rfl, fun _ _ => rfl, fun _ _ => rfl, fun _ => rfl, fun _ _ _ => rfl,
    fun _ _ => rfl, fun _ => rfl, fun _ _ _ => rfl, fun _ _ _ => rfl, fun _ => rfl⟩
  · intro out len ws
    suffices h : ∀ (b : SequenceValueEncoder),
        (ws.foldl SequenceValueEncoder.encode_next_write b).output = b.output from
      h _
    induction ws with
    | nil => intro b; rfl
    | cons w ws ih => intro b; exact ih _
  · intro out len ws
    suffices h : ∀ (b : MapValueEncoder),
        (ws.foldl (fun b p => MapValueEncoder.encode_entry_done b p.1 p.2)
          b).output = b.output from h _
    induction ws with
    | nil => intro b; rfl
    | cons w ws ih => intro b; exact ih _

/-- C10: `encode_unit` performs no write to the output sink — the sink is
returned exactly as it was (so a pre-initialized `Value::Unit` slot keeps
its value), and through the `SomeValueWriter` wrapping sink no
`Option`-present value is written either. -/
theorem encode_unit_writes_nothing :
    (∀ s : Sink, ValueEncoder.encode_unit s = s) ∧
    (∀ v : Value, ValueEncoder.encode_unit (Sink.slot v) = Sink.slot v) ∧
    (∀ s : Sink,
      ValueEncoder.encode_unit (ValueEncoder.encode_some s) = Sink.someWrap s) ∧
    (∀ (s : Sink) (b : Bool), ValueEncoder.encode_bool s b = Sink.write s (.bool b)) :=
  ⟨fun _ => rfl, fun _ => rfl, fun _ => rfl, fun _ _ => rfl⟩

theorem SystemBuf.writeAll_eq (ws : List (List Nat)) :
    ∀ data, SystemBuf.writeAll data ws = data ++ ws.flatten := by
  induction ws with
  | nil => intro data; simp [SystemBuf.writeAll]
  | cons w ws ih =>
    intro data
    show SystemBuf.writeAll ((SystemBuf.write data w).1) ws = _
    rw [ih]
    simp [SystemBuf.write]

/-- C5: `alloc` returns the free-list head when the free list is nonempty
and otherwise a newly created empty growable region; releasing clears the
region's contents and pushes it onto the head of the free list, so the
most recently released region is the next one handed out (LIFO reuse). -/
theorem system_pool_lifo (s : Internal) :
    (∀ id rest, s.head = id :: rest →
      (Internal.alloc s).1 = id ∧ (Internal.alloc s).2.head = rest ∧
        (Internal.alloc s).2.nextId = s.nextId) ∧
    (s.head = [] →
      (Internal.alloc s).1 = s.nextId ∧
        (Internal.alloc s).2.nextId = s.nextId + 1 ∧
        (Internal.alloc s).2.data s.nextId = []) ∧
    (∀ id, (Internal.free s id).data id = [] ∧
      (Internal.free s id).head = id :: s.head) ∧
    (∀ id, (Internal.alloc (Internal.free s id)).1 = id) := by
  refine ⟨?_, ?_, ?_, ?_⟩
  · intro id rest h
    simp [Internal.alloc, h]
  · intro h
    simp [Internal.alloc, h]
  · intro id
    exact ⟨by simp [Internal.free], rfl⟩
  · intro id
    simp [Internal.alloc, Internal.free]

/-- Witness for C5 at a concrete allocator state. -/
theorem system_pool_lifo_witness :
    ((⟨[3, 5], 7, fun _ => []⟩ : Internal).head = 3 :: [5] ∧
      (Internal.alloc ⟨[3, 5], 7, fun _ => []⟩).1 = 3) ∧
    (Internal.alloc (Internal.free ⟨[3, 5], 7, fun _ => []⟩ 9)).1 = 9 := by
  have h := system_pool_lifo (⟨[3, 5], 7, fun _ => []⟩ : Internal)
  exact ⟨⟨rfl, (h.1 3 [5] rfl).1⟩, h.2.2.2 9⟩

theorem PoolState.step_inv (st : PoolState) (op : AllocOp) (h : st.inv) :
    (st.step op).inv := by
  obtain ⟨h1, h2⟩ := h
  cases op with
  | acquire =>
    cases hh : st.internal.head with
    | nil =>
      rw [hh] at h1 h2
      simp only [List.length_nil] at h1 h2
      constructor <;>
        simp only [PoolState.step, Internal.alloc, hh, List.length_cons,
          List.length_nil] <;>
        omega
    | cons id rest =>
      rw [hh] at h1 h2
      simp only [List.length_cons] at h1 h2
      constructor <;>
        simp only [PoolState.step, Internal.alloc, hh, List.length_cons] <;>
        omega
  | write id bs =>
    show (PoolState.step st (.write id bs)).inv
    simp only [PoolState.step]
    split
    · exact ⟨h1, h2⟩
    · exact ⟨h1, h2⟩
  | release id =>
    show (PoolState.step st (.release id)).inv
    simp only [PoolState.step]
    split
    · rename_i hmem
      have hlen := List.length_erase_of_mem hmem
      have hpos : 0 < st.live.length := List.length_pos_of_mem hmem
      constructor <;>
        simp only [Internal.free, List.length_cons, hlen] <;>
        omega
    · exact ⟨h1, h2⟩

theorem PoolState.run_inv (ops : List AllocOp) :
    ∀ st : PoolState, st.inv → (st.run ops).inv := by
  induction ops with
  | nil => intro st h; exact h
  | cons op ops ih =>
    intro st h
    exact ih _ (PoolState.step_inv st op h)

/-- C6: along every acquire/write/release trace from the initial pool, the
number of distinct backing regions ever created (`nextId`) never exceeds
the peak number of simultaneously live handles; in particular repeated
acquire-write-release cycles create at most one region. -/
theorem pool_regions_bounded_by_peak :
    (∀ ops : List AllocOp,
      (PoolState.init.run ops).internal.nextId ≤ (PoolState.init.run ops).peak) ∧
    (∀ n : Nat, (PoolState.init.run (cycleOps n)).internal.nextId ≤ 1) := by
  constructor
  · intro ops
    have h := PoolState.run_inv ops PoolState.init ⟨rfl, le_refl 0⟩
    obtain ⟨h1, h2⟩ := h
    omega
  · intro n
    suffices h : ∀ st : PoolState,
        (st.internal.head = [] ∧ st.live = [] ∧ st.internal.nextId = 0) ∨
          (st.internal.head = [0] ∧ st.live = [] ∧ st.internal.nextId = 1) →
        (st.run (cycleOps n)).internal.nextId ≤ 1 by
      exact h PoolState.init (Or.inl ⟨rfl, rfl, rfl⟩)
    induction n with
    | zero =>
      intro st h
      rcases h with ⟨_, _, h3⟩ | ⟨_, _, h3⟩ <;>
        simp [PoolState.run, cycleOps, h3]
    | succ n ih =>
      intro st h
      show (st.run (acquireWriteRelease ++ cycleOps n)).internal.nextId ≤ 1
      rw [show st.run (acquireWriteRelease ++ cycleOps n) =
        (st.run acquireWriteRelease).run (cycleOps n) from
        List.foldl_append _ _ _ _]
      apply ih
      right
      obtain ⟨⟨ihd, inx, idt⟩, il, ip⟩ := st
      rcases h with ⟨hh, hl, hn⟩ | ⟨hh, hl, hn⟩ <;>
        simp only at hh hl hn <;>
        subst hh hl hn <;>
        simp [PoolState.run, acquireWriteRelease, PoolState.step, Internal.alloc,
          Internal.free]

/-- C9: `System::alloc` always returns `Some`; on the returned buffer
(initially empty, given that pooled regions are cleared on release),
`write` always appends and returns `true`, `len` equals the total bytes
written and `as_slice` is the concatenation of all writes in order. -/
theorem system_alloc_write_appends (s : Internal)
    (hclean : ∀ id, id ∈ s.head → s.data id = []) :
    (System.alloc s).isSome = true ∧
    (Internal.alloc s).2.data (Internal.alloc s).1 = [] ∧
    (∀ d bs, SystemBuf.write d bs = (d ++ bs, true)) ∧
    (∀ ws : List (List Nat),
      SystemBuf.as_slice
          (SystemBuf.writeAll ((Internal.alloc s).2.data (Internal.alloc s).1) ws) =
        ws.flatten ∧
      SystemBuf.len
          (SystemBuf.writeAll ((Internal.alloc s).2.data (Internal.alloc s).1) ws) =
        ws.flatten.length) := by
  have hempty : (Internal.alloc s).2.data (Internal.alloc s).1 = [] := by
    cases hh : s.head with
    | nil => simp [Internal.alloc, hh]
    | cons id rest =>
      simp only [Internal.alloc, hh]
      exact hclean id (by rw [hh]; exact List.mem_cons_self id rest)
  refine ⟨rfl, hempty, fun _ _ => rfl, ?_⟩
  intro ws
  rw [hempty, SystemBuf.writeAll_eq]
  exact ⟨rfl, rfl⟩

/-- Witness for C9 at a concrete state and write sequence. -/
theorem system_alloc_write_appends_witness :
    (∀ id, id ∈ (⟨[], 4, fun _ => []⟩ : Internal).head →
      (⟨[], 4, fun _ => []⟩ : Internal).data id = []) ∧
    SystemBuf.as_slice
        (SystemBuf.writeAll
          ((Internal.alloc ⟨[], 4, fun _ => []⟩).2.data
            (Internal.alloc ⟨[], 4, fun _ => []⟩).1) [[1, 2], [3]]) =
      [1, 2, 3] := by
  have h := system_alloc_write_appends (⟨[], 4, fun _ => []⟩ : Internal)
    (fun id hid => by simp at hid)
  exact ⟨fun id hid => by simp at hid, ((h.2.2.2) [[1, 2], [3]]).1⟩

/-- C7: a read or skip of `n` bytes succeeds exactly when `index + n`
(computed without wrap-around) does not exceed the slice length; otherwise
it returns a "Buffer underflow" error leaving the parser index and the
context position unchanged.  The `usize` bounds are the hypotheses. -/
theorem slice_parser_skip_read (p : SliceParser) (cx n : Nat)
    (hidx : p.index < 2 ^ 64) (hn : n < 2 ^ 64)
    (hlen : p.slice.length < 2 ^ 64) :
    (p.index + n ≤ p.slice.length →
      SliceParser.skip p cx n = (⟨p.slice, p.index + n⟩, cx + n, none) ∧
      SliceParser.read p cx n =
        (⟨p.slice, p.index + n⟩, cx + n,
          .ok ((p.slice.take (p.index + n)).drop p.index))) ∧
    (p.slice.length < p.index + n →
      SliceParser.skip p cx n = (p, cx, some ("Buffer underflow")) ∧
      SliceParser.read p cx n = (p, cx, Except.error ("Buffer underflow"))) := by
  constructor
  · intro hle
    have hout : (p.index + n) % 2 ^ 64 = p.index + n :=
      Nat.mod_eq_of_lt (by omega)
    have hcond : ¬((p.index + n) % 2 ^ 64 > p.slice.length ||
        (p.index + n) % 2 ^ 64 < p.index) = true := by
      rw [hout]
      simp only [Bool.or_eq_true, decide_eq_true_eq, not_or]
      omega
    constructor
    · show (if ((p.index + n) % 2 ^ 64 > p.slice.length ||
          (p.index + n) % 2 ^ 64 < p.index) = true then _ else _) = _
      rw [if_neg hcond, hout]
    · show (if ((p.index + n) % 2 ^ 64 > p.slice.length ||
          (p.index + n) % 2 ^ 64 < p.index) = true then _ else _) = _
      rw [if_neg hcond, hout]
  · intro hgt
    have hcond : ((p.index + n) % 2 ^ 64 > p.slice.length ||
        (p.index + n) % 2 ^ 64 < p.index) = true := by
      simp only [Bool.or_eq_true, decide_eq_true_eq]
      by_cases hwrap : p.index + n < 2 ^ 64
      · left
        rw [Nat.mod_eq_of_lt hwrap]
        omega
      · right
        have : (p.index + n) % 2 ^ 64 = p.index + n - 2 ^ 64 := by
          rw [Nat.mod_eq_sub_mod (by omega), Nat.mod_eq_of_lt (by omega)]
        omega
    constructor
    · show (if ((p.index + n) % 2 ^ 64 > p.slice.length ||
          (p.index + n) % 2 ^ 64 < p.index) = true then _ else _) = _
      rw [if_pos hcond]
    · show (if ((p.index + n) % 2 ^ 64 > p.slice.length ||
          (p.index + n) % 2 ^ 64 < p.index) = true then _ else _) = _
      rw [if_pos hcond]

/-- Witness for C7: a successful read and a truncated skip on a concrete
slice. -/
theorem slice_parser_skip_read_witness :
    ((⟨[10, 20, 30], 1⟩ : SliceParser).index < 2 ^ 64 ∧
      SliceParser.read ⟨[10, 20, 30], 1⟩ 5 2 =
        (⟨[10, 20, 30], 3⟩, 7, .ok [20, 30])) ∧
    SliceParser.skip ⟨[10, 20, 30], 1⟩ 5 3 =
      (⟨[10, 20, 30], 1⟩, 5, some ("Buffer underflow")) := by
  have hok := slice_parser_skip_read ⟨[10, 20, 30], 1⟩ 5 2
    (by norm_num) (by norm_num) (by norm_num)
  have hbad := slice_parser_skip_read ⟨[10, 20, 30], 1⟩ 5 3
    (by norm_num) (by norm_num) (by norm_num)
  refine ⟨⟨by norm_num, ?_⟩, (hbad.2 (by norm_num)).1⟩
  have h := (hok.1 (by norm_num)).2
  simpa using h

/-- C8: decoding a `String` succeeds through each of the three visitation
channels and yields exactly the visited text; the borrowed channel
delegates to the reference channel. -/
theorem string_decode_three_channels :
    (∀ (ch : Channel) (s : String), decode_string_via ch s = .ok s) ∧
    (∀ s : String,
      StringVisitor.visit_borrowed s = StringVisitor.visit_ref s) := by
  constructor
  · intro ch s
    cases ch <;> rfl
  · intro s
    rfl

/-- C3: encoding `{"Hello": "World"}` from the string-to-string record and
decoding it into a record whose `values` field expects numbers fails with
exactly `.values[Hello]: Invalid numeric (at bytes 19-20)`; collecting
mode returns exactly this singleton error list (and does not panic), and
fail-fast mode returns it as the sole error. -/
theorem trace_collection_error :
    traceCollect (jsonEncodeFrom [(("Hello"), ("World"))]) =
      some [(".values[Hello]: Invalid numeric (at bytes 19-20)")] ∧
    traceFailFast (jsonEncodeFrom [(("Hello"), ("World"))]) =
      some (".values[Hello]: Invalid numeric (at bytes 19-20)") := by
  constructor <;> rfl

end Musli